import Mathlib

/-!
Verification of the go-to-peer repository: a shallow embedding in Lean 4 of
the chunk store (`file.SplitFile` / `file.ReconstructFile`), the content
catalog (`peer.createCatalog` / `peer.generateChunkList`), the message codec
(`peer.EncodeMessage` over Go's `encoding/json`), the server-side connection
dispatcher (`peer.handleConnection`), and the client-side multi-server
download orchestrator (`peer.DownloadFileFromMultipleServers`), together with
theorems settling the specification claims about them.

File bytes are modelled as `List Nat` (each entry a byte value), file-system
I/O as explicit state values, and SHA-256 as an opaque hash-function
parameter, since the claims never depend on the digest's internals.
-/

namespace GoToPeer

set_option autoImplicit false

/-! ## Chunking (`file/chunk.go` constants and the read loop of `SplitFile`)

`const ChunkSize = 1 * 1024 * 1024`.  `SplitFile` repeatedly reads up to
`ChunkSize` bytes into a buffer and writes each non-empty read as one chunk;
the loop stops at the first zero-byte read (EOF).  On a regular file this
yields the `ChunkSize`-sized prefixes of the remaining bytes, so we model the
loop as repeated take/drop.  The recursion is fuelled by the byte count so
the definition reduces by `rfl`/`decide`; `l.length` fuel always suffices
because every iteration consumes at least one byte of a non-empty list. -/

def ChunkSize : Nat := 1 * 1024 * 1024

/-- The chunk-producing read loop of `SplitFile`, fuelled. -/
def chunksGo : Nat → List Nat → List (List Nat)
  | 0, _ => []
  | _ + 1, [] => []
  | fuel + 1, l => l.take ChunkSize :: chunksGo fuel (l.drop ChunkSize)

/-- The sequence of chunk payloads `SplitFile` writes for a file with bytes
`l`: `ChunkSize`-sized slices in byte order, the last possibly short. -/
def chunkBytes (l : List Nat) : List (List Nat) :=
  chunksGo l.length l

theorem chunkSize_pos : 0 < ChunkSize := by decide

theorem join_chunksGo (fuel : Nat) :
    ∀ l : List Nat, l.length ≤ fuel → (chunksGo fuel l).flatten = l := by
  induction fuel with
  | zero =>
    intro l hl
    have : l = [] := List.eq_nil_of_length_eq_zero (Nat.le_zero.mp hl)
    simp [this, chunksGo]
  | succ n ih =>
    intro l hl
    match l with
    | [] => simp [chunksGo]
    | a :: t =>
      have hdrop : ((a :: t).drop ChunkSize).length ≤ n := by
        have := List.length_drop ChunkSize (a :: t)
        simp only [this]
        have hlen : (a :: t).length ≤ n + 1 := hl
        have : (a :: t).length - ChunkSize ≤ (a :: t).length - 1 :=
          Nat.sub_le_sub_left chunkSize_pos (a :: t).length
        omega
      calc (chunksGo (n + 1) (a :: t)).flatten
          = (a :: t).take ChunkSize ++ (chunksGo n ((a :: t).drop ChunkSize)).flatten := by
            rfl
        _ = (a :: t).take ChunkSize ++ (a :: t).drop ChunkSize := by
            rw [ih _ hdrop]
        _ = a :: t := List.take_append_drop _ _

/-- Concatenating the chunks of `SplitFile` in write order gives back the
original bytes. -/
theorem join_chunkBytes (l : List Nat) : (chunkBytes l).flatten = l :=
  join_chunksGo l.length l (Nat.le_refl _)

theorem chunkSize_div_self_pred : (ChunkSize - 1) / ChunkSize = 0 :=
  Nat.div_eq_of_lt (by have := chunkSize_pos; omega)

theorem length_chunksGo (fuel : Nat) :
    ∀ l : List Nat, l.length ≤ fuel →
      (chunksGo fuel l).length = (l.length + ChunkSize - 1) / ChunkSize := by
  induction fuel with
  | zero =>
    intro l hl
    have : l = [] := List.eq_nil_of_length_eq_zero (Nat.le_zero.mp hl)
    subst this
    simpa [chunksGo] using chunkSize_div_self_pred.symm
  | succ n ih =>
    intro l hl
    match l with
    | [] => simpa [chunksGo] using chunkSize_div_self_pred.symm
    | a :: t =>
      have hdrop : ((a :: t).drop ChunkSize).length ≤ n := by
        have := List.length_drop ChunkSize (a :: t)
        simp only [this]
        have : (a :: t).length - ChunkSize ≤ (a :: t).length - 1 :=
          Nat.sub_le_sub_left chunkSize_pos (a :: t).length
        have hlen : (a :: t).length ≤ n + 1 := hl
        omega
      have hstep : (chunksGo (n + 1) (a :: t)).length
          = 1 + (chunksGo n ((a :: t).drop ChunkSize)).length := by
        simp [chunksGo, Nat.add_comm]
      rw [hstep, ih _ hdrop, List.length_drop]
      set m := (a :: t).length with hm
      have hm1 : 1 ≤ m := by
        simp [hm]
      by_cases hle : m ≤ ChunkSize
      · have h0 : m - ChunkSize = 0 := Nat.sub_eq_zero_of_le hle
        rw [h0]
        have hr : (0 + ChunkSize - 1) / ChunkSize = 0 := by
          simpa using chunkSize_div_self_pred
        rw [hr]
        have : (m + ChunkSize - 1) / ChunkSize = 1 := by
          apply Nat.div_eq_of_lt_le
          · have := chunkSize_pos; omega
          · have := chunkSize_pos; omega
        omega
      · push_neg at hle
        have h1 : m - ChunkSize + ChunkSize - 1 = m - 1 := by omega
        rw [h1]
        have h2 : m + ChunkSize - 1 = (m - 1) + ChunkSize := by omega
        rw [h2, Nat.add_div_right _ chunkSize_pos]
        omega

theorem length_chunkBytes (l : List Nat) :
    (chunkBytes l).length = (l.length + ChunkSize - 1) / ChunkSize :=
  length_chunksGo l.length l (Nat.le_refl _)

/-! ## Chunk identifiers

`SplitFile` names the `i`-th chunk `fmt.Sprintf("chunk_%d", i)`.  We model
`%d` with an explicit decimal renderer (digits most-significant first, as Go
prints them) and prove it injective by exhibiting its value function. -/

def digitChar (d : Nat) : Char := Char.ofNat (48 + d)

/-- Decimal digit renderer, fuelled so it reduces by `decide`. -/
def natDigitsGo : Nat → Nat → List Char
  | 0, _ => []
  | fuel + 1, n =>
    if n < 10 then [digitChar n]
    else natDigitsGo fuel (n / 10) ++ [digitChar (n % 10)]

/-- The decimal digit string of `n`, as `fmt.Sprintf("%d", n)` prints it. -/
def natDigits (n : Nat) : List Char := natDigitsGo (n + 1) n

/-- Numeric value of a digit string; inverse of `natDigits`. -/
def digitsVal (l : List Char) : Nat :=
  l.foldl (fun acc c => acc * 10 + (c.toNat - 48)) 0

theorem toNat_digitChar (d : Nat) (h : d < 10) : (digitChar d).toNat = 48 + d := by
  have hv : (48 + d).isValidChar := Or.inl (by omega)
  simp [digitChar, Char.ofNat, hv, Char.ofNatAux, Char.toNat, UInt32.toNat,
    UInt32.ofNatTruncate, UInt32.ofNat', BitVec.toNat_ofNat]

theorem digitsVal_append_digit (l : List Char) (c : Char) :
    digitsVal (l ++ [c]) = digitsVal l * 10 + (c.toNat - 48) := by
  simp [digitsVal, List.foldl_append]

theorem digitsVal_natDigitsGo (fuel : Nat) :
    ∀ n : Nat, n < fuel → digitsVal (natDigitsGo fuel n) = n := by
  induction fuel with
  | zero => intro n hn; omega
  | succ f ih =>
    intro n hn
    by_cases h10 : n < 10
    · simp only [natDigitsGo, if_pos h10]
      simp [digitsVal, toNat_digitChar n h10]
    · push_neg at h10
      have hdiv : n / 10 < f := by
        have : n / 10 < n := Nat.div_lt_self (by omega) (by omega)
        omega
      simp only [natDigitsGo]
      rw [if_neg (Nat.not_lt.mpr h10)]
      rw [digitsVal_append_digit, ih _ hdiv, toNat_digitChar _ (Nat.mod_lt n (by omega))]
      have h48 : 48 + n % 10 - 48 = n % 10 := by omega
      rw [h48]
      omega

theorem digitsVal_natDigits (n : Nat) : digitsVal (natDigits n) = n :=
  digitsVal_natDigitsGo (n + 1) n (Nat.lt_succ_self n)

theorem natDigits_injective : Function.Injective natDigits := by
  intro a b h
  have := congrArg digitsVal h
  rwa [digitsVal_natDigits, digitsVal_natDigits] at this

/-- `fmt.Sprintf("chunk_%d", i)`. -/
def mkChunkID (i : Nat) : String := "chunk_" ++ String.mk (natDigits i)

theorem mkChunkID_injective : Function.Injective mkChunkID := by
  intro a b h
  have hdata : "chunk_".data ++ natDigits a = "chunk_".data ++ natDigits b := by
    have := congrArg String.data h
    simpa [mkChunkID, String.data_append] using this
  exact natDigits_injective (List.append_cancel_left hdata)

theorem nodup_chunkIDs (n : Nat) : ((List.range n).map mkChunkID).Nodup :=
  (List.nodup_range n).map mkChunkID_injective

/-! ## The chunk store: `SplitFile` and `ReconstructFile` (`src/unnamed/part_000`)

`SplitFile(filePath, fileHash)` writes the chunk payloads of the file's bytes
under `chunks/<fileHash>/chunk_<i>` in read order and then writes
`chunks/<fileHash>/metadata.json` holding the original name, size, hash and
the chunk-id list in write (= byte) order.  `ReconstructFile(outputDir,
fileHash)` parses the metadata, rejects an empty original name, then opens
each chunk named in `metadata.Chunks` in order and appends its bytes to the
output file.  We model the per-hash directory as an explicit store value and
disk I/O as always succeeding (the error returns for I/O faults are outside
the round-trip claims). -/

structure FileMetadata where
  Name : String
  Size : Nat
  Chunks : List String
  Hash : String
deriving DecidableEq

structure ChunkStore where
  /-- chunk files under `chunks/<hash>/`, keyed by chunk id, in write order -/
  chunkFiles : List (String × List Nat)
  /-- `chunks/<hash>/metadata.json`, when present -/
  metadata : Option FileMetadata
deriving DecidableEq

/-- The store `SplitFile` leaves under `chunks/<fileHash>` for a file with
bytes `content` and directory-entry name `origName`. -/
def SplitFileM (content : List Nat) (origName : String) (fileHash : String) : ChunkStore :=
  { chunkFiles := ((List.range (chunkBytes content).length).map mkChunkID).zip (chunkBytes content)
    metadata := some { Name := origName, Size := content.length,
                       Chunks := (List.range (chunkBytes content).length).map mkChunkID,
                       Hash := fileHash } }

/-- The chunk-reading loop of `ReconstructFile`: open each chunk named in the
metadata in order, failing on the first chunk file that does not exist. -/
def readChunksM (store : ChunkStore) : List String → Except String (List (List Nat))
  | [] => .ok []
  | cid :: rest =>
    match store.chunkFiles.lookup cid with
    | none => .error ("failed to open chunk file " ++ cid)
    | some d =>
      match readChunksM store rest with
      | .error e => .error e
      | .ok ds => .ok (d :: ds)

/-- `ReconstructFile(outputDir, fileHash)` on the modelled store: returns the
output file's name (taken from the metadata) and its bytes. -/
def ReconstructFileM (store : ChunkStore) : Except String (String × List Nat) :=
  match store.metadata with
  | none => .error "failed to open metadata file"
  | some md =>
    if md.Name = "" then .error "original file name is missing in metadata"
    else
      match readChunksM store md.Chunks with
      | .error e => .error e
      | .ok pieces => .ok (md.Name, pieces.flatten)

theorem lookup_zip_of_nodup (ids : List String) :
    ∀ (vals : List (List Nat)), ids.Nodup → ids.length = vals.length →
      ∀ p ∈ ids.zip vals, (ids.zip vals).lookup p.1 = some p.2 := by
  induction ids with
  | nil => intro vals _ _ p hp; simp at hp
  | cons i0 rest ih =>
    intro vals hnd hlen p hp
    match vals with
    | [] => simp at hlen
    | v0 :: vs =>
      simp only [List.zip_cons_cons, List.mem_cons] at hp
      rcases hp with rfl | htail
      · simp [List.lookup]
      · have hp1 : p.1 ∈ rest := by
          rcases p with ⟨a, b⟩
          exact (List.of_mem_zip htail).1
        have hne : p.1 ≠ i0 := by
          intro hEq
          exact (List.nodup_cons.mp hnd).1 (hEq ▸ hp1)
        have hbeq : (p.1 == i0) = false := beq_false_of_ne hne
        simp only [List.zip_cons_cons, List.lookup, hbeq]
        exact ih vs (List.nodup_cons.mp hnd).2 (by simpa using hlen) p htail

theorem readChunksM_ok (store : ChunkStore) :
    ∀ (ids : List String) (vals : List (List Nat)), ids.length = vals.length →
      (∀ p ∈ ids.zip vals, store.chunkFiles.lookup p.1 = some p.2) →
      readChunksM store ids = .ok vals := by
  intro ids
  induction ids with
  | nil =>
    intro vals hlen _
    match vals with
    | [] => rfl
    | _ :: _ => simp at hlen
  | cons i0 rest ih =>
    intro vals hlen hlook
    match vals with
    | [] => simp at hlen
    | v0 :: vs =>
      have h0 : store.chunkFiles.lookup i0 = some v0 :=
        hlook (i0, v0) (by simp)
      have hrest : readChunksM store rest = .ok vs :=
        ih vs (by simpa using hlen) (fun p hp => hlook p (by simp [hp]))
      simp [readChunksM, h0, hrest]

/-- **C1.** For every file `F` (any byte sequence, covering 0 bytes, exactly
`ChunkSize` bytes, one byte over a chunk boundary, and several chunks),
splitting with `SplitFile(filePath, fileHash)` and then reconstructing with
`ReconstructFile(outputDir, fileHash)` produces a file with the original name
whose bytes are identical to `F`.  (The original name of a real on-disk file
is never empty, which `ReconstructFile` requires.) -/
theorem reconstruct_split (content : List Nat) (origName fileHash : String)
    (hname : origName ≠ "") :
    ReconstructFileM (SplitFileM content origName fileHash) = .ok (origName, content) := by
  have hlen : ((List.range (chunkBytes content).length).map mkChunkID).length
      = (chunkBytes content).length := by simp
  have hread : readChunksM (SplitFileM content origName fileHash)
      ((List.range (chunkBytes content).length).map mkChunkID) = .ok (chunkBytes content) := by
    apply readChunksM_ok
    · exact hlen
    · intro p hp
      exact lookup_zip_of_nodup _ _ (nodup_chunkIDs _) hlen p hp
  simp only [SplitFileM] at hread
  simp only [ReconstructFileM, SplitFileM, hread, if_neg hname]
  rw [join_chunkBytes]

/-- Witness for C1: the round trip at a 0-byte file and at a small 3-byte file. -/
theorem reconstruct_split_witness :
    (("empty.bin" : String) ≠ "" ∧
      ReconstructFileM (SplitFileM [] "empty.bin" "h0") = .ok ("empty.bin", [])) ∧
    (("f.txt" : String) ≠ "" ∧
      ReconstructFileM (SplitFileM [1, 2, 3] "f.txt" "h1") = .ok ("f.txt", [1, 2, 3])) :=
  ⟨⟨by decide, reconstruct_split [] "empty.bin" "h0" (by decide)⟩,
   ⟨by decide, reconstruct_split [1, 2, 3] "f.txt" "h1" (by decide)⟩⟩

/-! ## The content catalog (`src/peer/catalog.go`)

`createCatalog(directory)` iterates `os.ReadDir(directory)`, skips
subdirectories, and for each regular file computes
`util.CalculateFileHash` (which returns `""` if the file cannot be opened —
it has no error return), calls `file.SplitFile(filePath, hash)` (aborting
the whole build on error), and records a `FileMetadata` whose `Chunks` come
from `generateChunkList(hash)`.  `generateChunkList` re-reads the
`chunks/<hash>` directory with `os.ReadDir` — whose result is sorted by file
name — and returns every non-directory name it finds there, which after a
split is the `chunk_<i>` files *and* `metadata.json`.

The file system is modelled consistently: a directory entry is readable or
not as a whole, so `CalculateFileHash` and `SplitFile` fail on exactly the
same files, and `os.Stat` on a just-listed entry succeeds.  SHA-256 is an
opaque `hashFn` parameter. -/

structure DirEntry where
  name : String
  isDir : Bool
  /-- bytes of the file (meaningful when not a directory) -/
  content : List Nat
  /-- whether opening/reading this file succeeds -/
  readable : Bool
deriving DecidableEq

/-- `util.CalculateFileHash`: hex SHA-256 of the file's bytes, or `""` when
the file cannot be opened (the function has no error return). -/
def CalculateFileHashM (hashFn : List Nat → String) (e : DirEntry) : String :=
  if e.readable then hashFn e.content else ""

/-- `file.SplitFile` as used by the catalog: fails if the file cannot be
read, otherwise leaves the split store under `chunks/<hash>`. -/
def SplitFileE (e : DirEntry) (hash : String) : Except String ChunkStore :=
  if e.readable then .ok (SplitFileM e.content e.name hash) else .error "failed to open file"

/-- Names of the files a split leaves in `chunks/<hash>`: the chunk files in
write order plus `metadata.json`. -/
def storeFileNames (st : ChunkStore) : List String :=
  st.chunkFiles.map Prod.fst ++
    (match st.metadata with
     | some _ => ["metadata.json"]
     | none => [])

/-- Byte-wise lexicographic order on names, as Go's `os.ReadDir` sorts its
result (`sort` by file name, byte comparison; these names are ASCII). -/
def lexLe : List Char → List Char → Bool
  | [], _ => true
  | _ :: _, [] => false
  | a :: as, b :: bs =>
    if a.toNat < b.toNat then true
    else if b.toNat < a.toNat then false
    else lexLe as bs

def nameLe (s t : String) : Bool := lexLe s.data t.data

def insertSorted (s : String) : List String → List String
  | [] => [s]
  | t :: r => if nameLe s t then s :: t :: r else t :: insertSorted s r

/-- The sorted directory listing `os.ReadDir` returns. -/
def sortNames (l : List String) : List String := l.foldr insertSorted []

/-- `generateChunkList(hash)`: every non-directory name in the sorted
listing of `chunks/<hash>` (all entries there are regular files). -/
def generateChunkListM (st : ChunkStore) : List String :=
  sortNames (storeFileNames st)

structure FileCatalog where
  Files : List FileMetadata
deriving DecidableEq

/-- The per-entry loop of `createCatalog`. -/
def catalogGo (hashFn : List Nat → String) : List DirEntry → Except String (List FileMetadata)
  | [] => .ok []
  | e :: rest =>
    if e.isDir then catalogGo hashFn rest
    else
      match SplitFileE e (CalculateFileHashM hashFn e) with
      | .error err => .error ("failed to split file " ++ e.name ++ ": " ++ err)
      | .ok st =>
        match catalogGo hashFn rest with
        | .error err => .error err
        | .ok fs =>
          .ok ({ Name := e.name, Size := e.content.length,
                 Hash := CalculateFileHashM hashFn e,
                 Chunks := generateChunkListM st } :: fs)

/-- `createCatalog(directory)` over the modelled directory listing. -/
def createCatalogM (hashFn : List Nat → String) (entries : List DirEntry) :
    Except String FileCatalog :=
  (catalogGo hashFn entries).map FileCatalog.mk

theorem catalogGo_ok (hashFn : List Nat → String) :
    ∀ entries : List DirEntry, (∀ e ∈ entries, e.isDir = false → e.readable = true) →
      ∃ fs, catalogGo hashFn entries = .ok fs ∧
        fs.map FileMetadata.Name = (entries.filter (fun e => !e.isDir)).map DirEntry.name := by
  intro entries
  induction entries with
  | nil => intro _; exact ⟨[], rfl, rfl⟩
  | cons e rest ih =>
    intro h
    obtain ⟨fs, hfs, hnames⟩ := ih (fun x hx => h x (List.mem_cons_of_mem e hx))
    by_cases hd : e.isDir = true
    · refine ⟨fs, ?_, ?_⟩
      · simp [catalogGo, hd, hfs]
      · simp [hd, hnames]
    · have hd' : e.isDir = false := by simpa using hd
      have hr : e.readable = true := h e (List.mem_cons_self e rest) hd'
      refine ⟨{ Name := e.name, Size := e.content.length,
                Hash := CalculateFileHashM hashFn e,
                Chunks := generateChunkListM (SplitFileM e.content e.name
                  (CalculateFileHashM hashFn e)) } :: fs, ?_, ?_⟩
      · simp [catalogGo, hd', SplitFileE, hr, hfs]
      · simp [hd', hnames]

theorem catalogGo_err (hashFn : List Nat → String) :
    ∀ entries : List DirEntry,
      (∃ e ∈ entries, e.isDir = false ∧ e.readable = false) →
      ∃ msg, catalogGo hashFn entries = .error msg := by
  intro entries
  induction entries with
  | nil => rintro ⟨e, he, -⟩; simp at he
  | cons e rest ih =>
    rintro ⟨w, hw, hwdir, hwread⟩
    rcases List.mem_cons.mp hw with rfl | hwrest
    · exact ⟨"failed to split file " ++ w.name ++ ": " ++ "failed to open file",
        by simp [catalogGo, hwdir, SplitFileE, hwread]⟩
    · obtain ⟨msg, hmsg⟩ := ih ⟨w, hwrest, hwdir, hwread⟩
      by_cases hd : e.isDir = true
      · exact ⟨msg, by simp [catalogGo, hd, hmsg]⟩
      · have hd' : e.isDir = false := by simpa using hd
        by_cases hr : e.readable = true
        · exact ⟨msg, by simp [catalogGo, hd', SplitFileE, hr, hmsg]⟩
        · have hr' : e.readable = false := by simpa using hr
          exact ⟨"failed to split file " ++ e.name ++ ": " ++ "failed to open file",
            by simp [catalogGo, hd', SplitFileE, hr']⟩

/-- **C7.** For a directory of `N` regular files and `M` subdirectories,
`createCatalog` returns one `FileMetadata` entry per regular file, in listing
order, skipping subdirectories — provided every regular file is
readable; and if some regular file cannot be read, the whole build aborts
with an error (fail-fast, no partial catalog): the unreadable file makes
`SplitFile` fail, which `createCatalog` propagates. -/
theorem createCatalog_perFile_failfast (hashFn : List Nat → String) (entries : List DirEntry) :
    ((∀ e ∈ entries, e.isDir = false → e.readable = true) →
      ∃ cat, createCatalogM hashFn entries = .ok cat ∧
        cat.Files.map FileMetadata.Name = (entries.filter (fun e => !e.isDir)).map DirEntry.name) ∧
    ((∃ e ∈ entries, e.isDir = false ∧ e.readable = false) →
      ∃ msg, createCatalogM hashFn entries = .error msg) := by
  constructor
  · intro h
    obtain ⟨fs, hfs, hnames⟩ := catalogGo_ok hashFn entries h
    exact ⟨⟨fs⟩, by simp [createCatalogM, hfs, Except.map], hnames⟩
  · intro h
    obtain ⟨msg, hmsg⟩ := catalogGo_err hashFn entries h
    exact ⟨msg, by simp [createCatalogM, hmsg, Except.map]⟩

/-- Witness for C7: a directory with two regular files and one subdirectory
gives exactly the two file entries; a directory with one unreadable regular
file aborts with an error. -/
theorem createCatalog_perFile_failfast_witness :
    (∃ cat, createCatalogM (fun _ => "H")
        [{ name := "a.txt", isDir := false, content := [1], readable := true },
         { name := "sub", isDir := true, content := [], readable := true },
         { name := "b.txt", isDir := false, content := [2, 3], readable := true }] = .ok cat ∧
      cat.Files.map FileMetadata.Name = ["a.txt", "b.txt"]) ∧
    (∃ msg, createCatalogM (fun _ => "H")
        [{ name := "bad.txt", isDir := false, content := [1], readable := false }]
      = .error msg) := by
  constructor
  · obtain ⟨cat, h1, h2⟩ :=
      (createCatalog_perFile_failfast (fun _ => "H")
        [{ name := "a.txt", isDir := false, content := [1], readable := true },
         { name := "sub", isDir := true, content := [], readable := true },
         { name := "b.txt", isDir := false, content := [2, 3], readable := true }]).1
        (by decide)
    refine ⟨cat, h1, ?_⟩
    rw [h2]
    decide
  · exact (createCatalog_perFile_failfast (fun _ => "H")
      [{ name := "bad.txt", isDir := false, content := [1], readable := false }]).2
      (by decide)

theorem length_chunkBytes_eleven :
    (chunkBytes (List.replicate (10 * ChunkSize + 1) 0)).length = 11 := by
  rw [length_chunkBytes, List.length_replicate]
  have h : 10 * ChunkSize + 1 + ChunkSize - 1 = 11 * ChunkSize := by
    have := chunkSize_pos; ring_nf; omega
  rw [h, Nat.mul_div_cancel 11 chunkSize_pos]

theorem generateChunkList_eleven :
    generateChunkListM (SplitFileM (List.replicate (10 * ChunkSize + 1) 0) "big.bin" "H")
      = ["chunk_0", "chunk_1", "chunk_10", "chunk_2", "chunk_3", "chunk_4", "chunk_5",
         "chunk_6", "chunk_7", "chunk_8", "chunk_9", "metadata.json"] := by
  have hfst : (((List.range (chunkBytes (List.replicate (10 * ChunkSize + 1) 0)).length).map
      mkChunkID).zip (chunkBytes (List.replicate (10 * ChunkSize + 1) 0))).map Prod.fst
      = (List.range (chunkBytes (List.replicate (10 * ChunkSize + 1) 0)).length).map mkChunkID :=
    List.map_fst_zip _ _ (by simp)
  simp only [generateChunkListM, storeFileNames, SplitFileM]
  rw [hfst, length_chunkBytes_eleven]
  set_option maxRecDepth 8000 in decide

/-- **C2** is violated by the code: `generateChunkList` returns the
`os.ReadDir` listing of `chunks/<hash>`, which is sorted lexicographically by
name and also contains `metadata.json`.  For a file of 11 chunks the
catalog entry built by `createCatalog` lists `chunk_10` *before* `chunk_2`
(and lists `metadata.json` as a chunk), so the `Chunks` list is not in the
byte order of the original file and concatenating the listed payloads cannot
reproduce the file. -/
theorem createCatalog_chunkOrder_bug :
    ∃ md : FileMetadata,
      createCatalogM (fun _ => "H")
          [{ name := "big.bin", isDir := false,
             content := List.replicate (10 * ChunkSize + 1) 0, readable := true }]
        = .ok ⟨[md]⟩ ∧
      md.Chunks = ["chunk_0", "chunk_1", "chunk_10", "chunk_2", "chunk_3", "chunk_4",
                   "chunk_5", "chunk_6", "chunk_7", "chunk_8", "chunk_9", "metadata.json"] ∧
      md.Chunks.indexOf "chunk_10" < md.Chunks.indexOf "chunk_2" ∧
      "metadata.json" ∈ md.Chunks := by
  refine ⟨{ Name := "big.bin", Size := 10 * ChunkSize + 1, Hash := "H",
            Chunks := ["chunk_0", "chunk_1", "chunk_10", "chunk_2", "chunk_3", "chunk_4",
                       "chunk_5", "chunk_6", "chunk_7", "chunk_8", "chunk_9",
                       "metadata.json"] }, ?_, rfl, by decide, by decide⟩
  simp [createCatalogM, catalogGo, CalculateFileHashM, SplitFileE,
    generateChunkList_eleven, Except.map, List.length_replicate]

/-! ## The message codec (`src/peer/protocol.go` over Go's `encoding/json`)

`EncodeMessage(msg)` is `json.Marshal` of `Message{Type string, Payload
interface{}}`.  We model JSON values with an inductive type and Go's compact
marshaller output directly: object/array syntax with no whitespace, strings
with Go's escaping (`"` `\` and control characters escaped, `\n` `\r` `\t`
short forms, other controls and — with Go's default HTML escaping — `<` `>`
`&` as `\u00xx`, and U+2028/U+2029 as `\u202x`), numbers in decimal.  The
claim of interest is that the serialized form never contains a raw newline
byte, so the `'\n'` appended by every sender is the frame's only newline. -/

inductive Json where
  | null : Json
  | bool : Bool → Json
  | num : Int → Json
  | str : String → Json
  | arr : List Json → Json
  | obj : List (String × Json) → Json

/-- Lowercase hex digit, as Go's `\u00xx` escapes print it. -/
def hexDigitChar (n : Nat) : Char :=
  if n < 10 then Char.ofNat (48 + n) else Char.ofNat (87 + n)

/-- Go `encoding/json` string escaping for one character. -/
def escChar (c : Char) : List Char :=
  if c = '"' then ['\\', '"']
  else if c = '\\' then ['\\', '\\']
  else if c = '\n' then ['\\', 'n']
  else if c = '\r' then ['\\', 'r']
  else if c = '\t' then ['\\', 't']
  else if c.toNat < 32 ∨ c = '<' ∨ c = '>' ∨ c = '&' then
    ['\\', 'u', '0', '0', hexDigitChar (c.toNat / 16 % 16), hexDigitChar (c.toNat % 16)]
  else if c.toNat = 8232 ∨ c.toNat = 8233 then
    ['\\', 'u', '2', '0', '2', hexDigitChar (c.toNat % 16)]
  else [c]

def escString (s : String) : List Char :=
  '"' :: (s.data.flatMap escChar ++ ['"'])

/-- Decimal form of an `int64`, as `json.Marshal` prints numbers. -/
def intChars : Int → List Char
  | .ofNat m => natDigits m
  | .negSucc m => '-' :: natDigits (m + 1)

mutual

/-- Compact `json.Marshal` output for a JSON value. -/
def serJson : Json → List Char
  | .null => "null".data
  | .bool true => "true".data
  | .bool false => "false".data
  | .num n => intChars n
  | .str s => escString s
  | .arr l => '[' :: (serArr l ++ [']'])
  | .obj l => '\x7b' :: (serObj l ++ ['\x7d'])

def serArr : List Json → List Char
  | [] => []
  | [x] => serJson x
  | x :: y :: xs => serJson x ++ (',' :: serArr (y :: xs))

def serObj : List (String × Json) → List Char
  | [] => []
  | [(k, v)] => escString k ++ (':' :: serJson v)
  | (k, v) :: p :: xs => escString k ++ (':' :: (serJson v ++ (',' :: serObj (p :: xs))))

end

/-- `EncodeMessage`: `json.Marshal(Message{Type: t, Payload: p})`. -/
def EncodeMessageM (t : String) (p : Json) : List Char :=
  serJson (.obj [("type", .str t), ("payload", p)])

theorem toNat_ofNat_valid (n : Nat) (h : n.isValidChar) : (Char.ofNat n).toNat = n := by
  have hlt : n < 4294967296 := by
    rcases h with h | ⟨-, h⟩ <;> omega
  simp [Char.ofNat, h, Char.ofNatAux, Char.toNat, UInt32.toNat, UInt32.ofNatTruncate,
    UInt32.ofNat', BitVec.toNat_ofNat, Nat.mod_eq_of_lt hlt]

theorem hexDigitChar_ne_newline (n : Nat) (h : n < 16) : hexDigitChar n ≠ '\n' := by
  intro hEq
  have htn := congrArg Char.toNat hEq
  by_cases h10 : n < 10
  · rw [hexDigitChar, if_pos h10, toNat_ofNat_valid _ (Or.inl (by omega)),
      (by decide : ('\n').toNat = 10)] at htn
    omega
  · rw [hexDigitChar, if_neg h10, toNat_ofNat_valid _ (Or.inl (by omega)),
      (by decide : ('\n').toNat = 10)] at htn
    omega

theorem natDigitsGo_ne_newline (fuel : Nat) :
    ∀ n : Nat, '\n' ∉ natDigitsGo fuel n := by
  induction fuel with
  | zero => intro n; simp [natDigitsGo]
  | succ f ih =>
    intro n
    by_cases h10 : n < 10
    · simp only [natDigitsGo, if_pos h10, List.mem_singleton]
      intro hEq
      have h1 := congrArg Char.toNat hEq.symm
      rw [toNat_digitChar n h10, (by decide : ('\n').toNat = 10)] at h1
      omega
    · simp only [natDigitsGo, if_neg h10, List.mem_append, List.mem_singleton]
      rintro (h | hEq)
      · exact ih _ h
      · have h1 := congrArg Char.toNat hEq.symm
        rw [toNat_digitChar _ (Nat.mod_lt n (by omega)),
          (by decide : ('\n').toNat = 10)] at h1
        omega

theorem natDigits_ne_newline (n : Nat) : '\n' ∉ natDigits n :=
  natDigitsGo_ne_newline (n + 1) n

theorem intChars_ne_newline (n : Int) : '\n' ∉ intChars n := by
  cases n with
  | ofNat m => exact natDigits_ne_newline m
  | negSucc m =>
    simp only [intChars, List.mem_cons]
    rintro (h | h)
    · exact absurd h.symm (by decide)
    · exact natDigits_ne_newline _ h

theorem escSix_no_newline (a b : Char) (ha : a ≠ '\n') (hb : b ≠ '\n')
    (z o : Char) (hz : z ≠ '\n') (ho : o ≠ '\n') :
    '\n' ∉ ['\\', 'u', z, o, a, b] := by
  intro h
  rcases List.mem_cons.mp h with h | h
  · exact absurd h.symm (by decide)
  rcases List.mem_cons.mp h with h | h
  · exact absurd h.symm (by decide)
  rcases List.mem_cons.mp h with h | h
  · exact hz h.symm
  rcases List.mem_cons.mp h with h | h
  · exact ho h.symm
  rcases List.mem_cons.mp h with h | h
  · exact ha h.symm
  rcases List.mem_cons.mp h with h | h
  · exact hb h.symm
  · simp at h

theorem escChar_ne_newline (c : Char) : '\n' ∉ escChar c := by
  by_cases h1 : c = '"'
  · simp [escChar, h1]
  by_cases h2 : c = '\\'
  · simp [escChar, h1, h2]
  by_cases h3 : c = '\n'
  · simp [escChar, h1, h2, h3]
  by_cases h4 : c = '\r'
  · simp [escChar, h1, h2, h3, h4]
  by_cases h5 : c = '\t'
  · simp [escChar, h1, h2, h3, h4, h5]
  by_cases h6 : c.toNat < 32 ∨ c = '<' ∨ c = '>' ∨ c = '&'
  · simp only [escChar, if_neg h1, if_neg h2, if_neg h3, if_neg h4, if_neg h5, if_pos h6]
    exact escSix_no_newline _ _
      (hexDigitChar_ne_newline _ (Nat.mod_lt _ (by omega)))
      (hexDigitChar_ne_newline _ (Nat.mod_lt _ (by omega)))
      '0' '0' (by decide) (by decide)
  by_cases h7 : c.toNat = 8232 ∨ c.toNat = 8233
  · simp only [escChar, if_neg h1, if_neg h2, if_neg h3, if_neg h4, if_neg h5, if_neg h6,
      if_pos h7]
    exact escSix_no_newline _ _
      (by decide)
      (hexDigitChar_ne_newline _ (Nat.mod_lt _ (by omega)))
      '2' '0' (by decide) (by decide)
  · simp only [escChar, if_neg h1, if_neg h2, if_neg h3, if_neg h4, if_neg h5, if_neg h6,
      if_neg h7, List.mem_singleton]
    exact fun hEq => h3 hEq.symm

theorem escString_ne_newline (s : String) : '\n' ∉ escString s := by
  intro h
  rcases List.mem_cons.mp h with h | h
  · exact absurd h.symm (by decide)
  rcases List.mem_append.mp h with h | h
  · obtain ⟨c, -, hc⟩ := List.mem_flatMap.mp h
    exact escChar_ne_newline c hc
  · rcases List.mem_cons.mp h with h | h
    · exact absurd h.symm (by decide)
    · simp at h

mutual

theorem serJson_ne_newline : (j : Json) → '\n' ∉ serJson j
  | .null => by decide
  | .bool true => by decide
  | .bool false => by decide
  | .num n => intChars_ne_newline n
  | .str s => escString_ne_newline s
  | .arr l => by
    have h := serArr_ne_newline l
    simp only [serJson]
    intro hc
    rcases List.mem_cons.mp hc with hc | hc
    · exact absurd hc.symm (by decide)
    rcases List.mem_append.mp hc with hc | hc
    · exact h hc
    · rcases List.mem_cons.mp hc with hc | hc
      · exact absurd hc.symm (by decide)
      · simp at hc
  | .obj l => by
    have h := serObj_ne_newline l
    simp only [serJson]
    intro hc
    rcases List.mem_cons.mp hc with hc | hc
    · exact absurd hc.symm (by decide)
    rcases List.mem_append.mp hc with hc | hc
    · exact h hc
    · rcases List.mem_cons.mp hc with hc | hc
      · exact absurd hc.symm (by decide)
      · simp at hc

theorem serArr_ne_newline : (l : List Json) → '\n' ∉ serArr l
  | [] => by simp [serArr]
  | [x] => serJson_ne_newline x
  | x :: y :: xs => by
    have h1 := serJson_ne_newline x
    have h2 := serArr_ne_newline (y :: xs)
    simp only [serArr]
    intro hc
    rcases List.mem_append.mp hc with hc | hc
    · exact h1 hc
    rcases List.mem_cons.mp hc with hc | hc
    · exact absurd hc.symm (by decide)
    · exact h2 hc

theorem serObj_ne_newline : (l : List (String × Json)) → '\n' ∉ serObj l
  | [] => by simp [serObj]
  | [(k, v)] => by
    have h1 := escString_ne_newline k
    have h2 := serJson_ne_newline v
    simp only [serObj]
    intro hc
    rcases List.mem_append.mp hc with hc | hc
    · exact h1 hc
    rcases List.mem_cons.mp hc with hc | hc
    · exact absurd hc.symm (by decide)
    · exact h2 hc
  | (k, v) :: p :: xs => by
    have h1 := escString_ne_newline k
    have h2 := serJson_ne_newline v
    have h3 := serObj_ne_newline (p :: xs)
    simp only [serObj]
    intro hc
    rcases List.mem_append.mp hc with hc | hc
    · exact h1 hc
    rcases List.mem_cons.mp hc with hc | hc
    · exact absurd hc.symm (by decide)
    rcases List.mem_append.mp hc with hc | hc
    · exact h2 hc
    rcases List.mem_cons.mp hc with hc | hc
    · exact absurd hc.symm (by decide)
    · exact h3 hc

end

/-- **C9.** For every `Message` that `EncodeMessage` encodes, the returned
byte sequence contains no newline (0x0A) byte anywhere: every character of
the marshalled form is either structural JSON punctuation, a digit, a
keyword letter, or an escaped string character, none of which is a raw
newline — so the single `'\n'` appended by the sender is the only newline in
the framed unit. -/
theorem encodeMessage_no_newline (t : String) (p : Json) : '\n' ∉ EncodeMessageM t p :=
  serJson_ne_newline (.obj [("type", .str t), ("payload", p)])

/-! ## The connection dispatcher (`handleConnection` in `src/peer/catalog.go`)

The per-connection server loop reads newline-delimited lines until a read
fails (EOF/disconnect), decodes each line with `DecodeMessage` — on decode
failure it logs and `continue`s, keeping the connection open — and
dispatches on the message type: `FILE_CATALOG_REQUEST` answers with a
freshly built catalog of `server_files`; `FILE_METADATA_REQUEST` answers
with the matching entry's name and chunks, or with the *zero-valued*
`FileMetadataResponsePayload` when no entry matches; `CHUNK_REQUEST` answers
with the chunk bytes and their hash, or is dropped (no response) when the
chunk cannot be resolved or read; unknown types are logged and dropped.
Handler-internal failures (`createCatalog` error, chunk read error) also
`continue` without a response.

We model a connection's incoming bytes as the list of lines the reader
yields before the read loop ends, decoding as a function to `Option
Message`, and the loop as the list of responses written back, in order.
Payloads are modelled as a sum with one constructor per payload struct
(Go's `interface{}` re-marshalled into the type-specific struct; a
missing/mismatched payload unmarshals to that struct's zero value, the
`empty` constructor's reading). -/

inductive PayloadVal where
  | empty : PayloadVal
  | catalog : FileCatalog → PayloadVal
  | metaReq : (fileName : String) → PayloadVal
  | metaResp : (fileName : String) → (chunks : List String) → PayloadVal
  | chunkReq : (chunkID : String) → PayloadVal
  | chunkResp : (chunkID : String) → (data : List Nat) → (hash : String) → PayloadVal
deriving DecidableEq

structure Message where
  type : String
  payload : PayloadVal
deriving DecidableEq

def FileCatalogRequest : String := "FILE_CATALOG_REQUEST"
def FileCatalogResponse : String := "FILE_CATALOG_RESPONSE"
def FileMetadataRequest : String := "FILE_METADATA_REQUEST"
def FileMetadataResponse : String := "FILE_METADATA_RESPONSE"
def ChunkRequest : String := "CHUNK_REQUEST"
def ChunkResponse : String := "CHUNK_RESPONSE"

/-- `json.Unmarshal` of a message payload into `FileMetadataRequestPayload`:
the zero value (empty name) unless the payload carries a `file_name`. -/
def payloadFileName : PayloadVal → String
  | .metaReq n => n
  | _ => ""

/-- `json.Unmarshal` of a message payload into `ChunkRequestPayload`. -/
def payloadChunkID : PayloadVal → String
  | .chunkReq c => c
  | _ => ""

/-- The `FILE_METADATA_REQUEST` lookup loop: first entry with the requested
name, else the zero-valued response payload (empty name, no chunks). -/
def findMetaPayload (cat : FileCatalog) (reqName : String) : PayloadVal :=
  match cat.Files.find? (fun f => f.Name == reqName) with
  | some f => .metaResp f.Name f.Chunks
  | none => .metaResp "" []

/-- The `CHUNK_REQUEST` search loop: name of the first file whose chunk list
contains the requested id, `""` when none does. -/
def findFileForChunk (cat : FileCatalog) (chunkID : String) : String :=
  match cat.Files.find? (fun f => f.Chunks.contains chunkID) with
  | some f => f.Name
  | none => ""

/-- The server's environment: the shared directory, the hash function, and
the outcome of `getChunkData`'s chunk-file read for a given
`(chunkID, fileName)`. -/
structure ServerEnv where
  hashFn : List Nat → String
  serverFiles : List DirEntry
  chunkRead : (chunkID : String) → (fileName : String) → Except String (List Nat)

/-- One dispatch step of `handleConnection`: the response written for a
decoded message, or `none` when the handler logs and continues without
responding. -/
def handleMessageM (env : ServerEnv) (msg : Message) : Option Message :=
  if msg.type = FileCatalogRequest then
    match createCatalogM env.hashFn env.serverFiles with
    | .error _ => none
    | .ok cat => some { type := FileCatalogResponse, payload := .catalog cat }
  else if msg.type = FileMetadataRequest then
    match createCatalogM env.hashFn env.serverFiles with
    | .error _ => none
    | .ok cat =>
      some { type := FileMetadataResponse,
             payload := findMetaPayload cat (payloadFileName msg.payload) }
  else if msg.type = ChunkRequest then
    let fileName :=
      match createCatalogM env.hashFn env.serverFiles with
      | .error _ => ""
      | .ok cat => findFileForChunk cat (payloadChunkID msg.payload)
    if fileName = "" then none
    else
      match env.chunkRead (payloadChunkID msg.payload) fileName with
      | .error _ => none
      | .ok data =>
        some { type := ChunkResponse,
               payload := .chunkResp (payloadChunkID msg.payload) data (env.hashFn data) }
  else none

/-- The read loop of `handleConnection` over the lines a connection yields
before EOF/read failure: the responses written, in order.  Undecodable lines
and handler-dropped requests produce no response and do not end the loop. -/
def runConn (env : ServerEnv) (decode : String → Option Message) :
    List String → List Message
  | [] => []
  | line :: rest =>
    match decode line with
    | none => runConn env decode rest
    | some msg =>
      match handleMessageM env msg with
      | none => runConn env decode rest
      | some resp => resp :: runConn env decode rest

/-- **C6.** A message that fails to decode never terminates the connection:
the dispatcher skips it and the rest of the connection behaves exactly as if
the bad line had not been sent; in particular a valid
`FILE_CATALOG_REQUEST` arriving after an invalid line is still answered with
a `FILE_CATALOG_RESPONSE`.  The loop itself only ends with the input
(read failure / EOF). -/
theorem dispatcher_survives_bad_line (env : ServerEnv) (decode : String → Option Message)
    (bad : String) (rest : List String) (hbad : decode bad = none) :
    runConn env decode (bad :: rest) = runConn env decode rest ∧
    (∀ (req : String) (pl : PayloadVal) (cat : FileCatalog),
      decode req = some { type := FileCatalogRequest, payload := pl } →
      createCatalogM env.hashFn env.serverFiles = .ok cat →
      runConn env decode (bad :: req :: rest)
        = { type := FileCatalogResponse, payload := .catalog cat } :: runConn env decode rest) := by
  constructor
  · simp [runConn, hbad]
  · intro req pl cat hreq hcat
    simp [runConn, hbad, hreq, handleMessageM, hcat, FileCatalogRequest]

/-- Witness for C6: a concrete garbage line followed by a catalog request on
an empty shared directory still yields the catalog response. -/
theorem dispatcher_survives_bad_line_witness :
    ((fun s => if s = "CATREQ" then
        some { type := FileCatalogRequest, payload := PayloadVal.empty }
      else none) "garbage" = (none : Option Message)) ∧
    runConn { hashFn := fun _ => "H", serverFiles := [],
              chunkRead := fun _ _ => .error "no chunk" }
        (fun s => if s = "CATREQ" then
          some { type := FileCatalogRequest, payload := PayloadVal.empty }
        else none)
        ["garbage", "CATREQ"]
      = [{ type := FileCatalogResponse, payload := .catalog ⟨[]⟩ }] := by
  refine ⟨by decide, ?_⟩
  have h := (dispatcher_survives_bad_line
      { hashFn := fun _ => "H", serverFiles := [], chunkRead := fun _ _ => .error "no chunk" }
      (fun s => if s = "CATREQ" then
        some { type := FileCatalogRequest, payload := PayloadVal.empty }
      else none)
      "garbage" [] (by decide)).2 "CATREQ" PayloadVal.empty ⟨[]⟩ (by decide) (by rfl)
  simpa [runConn] using h

/-- A server whose shared directory holds one readable file `a.txt`; used to
evaluate the metadata-request path on a name that is not in the catalog. -/
def envOneFile : ServerEnv :=
  { hashFn := fun _ => "H"
    serverFiles := [{ name := "a.txt", isDir := false, content := [1], readable := true }]
    chunkRead := fun _ _ => .error "no chunk" }

/-- C8 as stated is false: for a `FILE_METADATA_REQUEST` naming a file that
is not in the catalog, the response payload is the *zero-valued*
`FileMetadataResponsePayload` — its `file_name` is `""`, not the requested
name (`var responsePayload ...` is never assigned when the name search
fails).  Only the empty chunk list part holds. -/
theorem metadataAbsent_keeps_name_counterexample :
    handleMessageM envOneFile { type := FileMetadataRequest, payload := .metaReq "missing.txt" }
      = some { type := FileMetadataResponse, payload := .metaResp "" [] } ∧
    handleMessageM envOneFile { type := FileMetadataRequest, payload := .metaReq "missing.txt" }
      ≠ some { type := FileMetadataResponse, payload := .metaResp "missing.txt" [] } := by
  constructor
  · set_option maxRecDepth 8000 in decide
  · set_option maxRecDepth 8000 in decide

/-- **C8 (amended).** For every `FILE_METADATA_REQUEST` whose `file_name` is
not in the server's catalog, the server responds with a
`FILE_METADATA_RESPONSE` carrying the zero-valued payload: an *empty*
`file_name` (not the requested one) and an empty chunk list — so the caller
can still detect absence by the emptiness of the chunk list. -/
theorem metadataRequest_absent_zero_response (env : ServerEnv) (reqName : String)
    (cat : FileCatalog) (hcat : createCatalogM env.hashFn env.serverFiles = .ok cat)
    (habsent : ∀ f ∈ cat.Files, f.Name ≠ reqName) :
    handleMessageM env { type := FileMetadataRequest, payload := .metaReq reqName }
      = some { type := FileMetadataResponse, payload := .metaResp "" [] } := by
  have hfind : cat.Files.find? (fun f => f.Name == reqName) = none := by
    apply List.find?_eq_none.mpr
    intro f hf
    simpa using habsent f hf
  simp [handleMessageM, FileMetadataRequest, FileCatalogRequest, hcat,
    findMetaPayload, hfind, payloadFileName]

/-- Witness for the amended C8: the one-file server answers a request for
`missing.txt` with the zero-valued payload. -/
theorem metadataRequest_absent_zero_response_witness :
    createCatalogM envOneFile.hashFn envOneFile.serverFiles
      = .ok ⟨[{ Name := "a.txt", Size := 1, Hash := "H",
                Chunks := ["chunk_0", "metadata.json"] }]⟩ ∧
    handleMessageM envOneFile { type := FileMetadataRequest, payload := .metaReq "missing.txt" }
      = some { type := FileMetadataResponse, payload := .metaResp "" [] } := by
  have hcat : createCatalogM envOneFile.hashFn envOneFile.serverFiles
      = .ok ⟨[{ Name := "a.txt", Size := 1, Hash := "H",
                Chunks := ["chunk_0", "metadata.json"] }]⟩ := by
    set_option maxRecDepth 8000 in rfl
  exact ⟨hcat, metadataRequest_absent_zero_response envOneFile "missing.txt" _ hcat
    (by set_option maxRecDepth 8000 in decide)⟩

/-! ## The download orchestrator (`src/unnamed/part_001`)

`DownloadFileFromMultipleServers(fileHash, fileName, servers)`:
fetch the catalog from `servers[0]`; take the `Chunks` of the first entry
whose `Hash` matches, failing with "file with hash … not found on servers"
when that list is empty (which covers both a missing entry and an entry
with no chunks); build the round-robin map `chunkToServer[chunk] =
servers[i % len(servers)]`; enqueue every map pair once and let the worker
pool run `downloadChunkFromServer` for each; collect worker errors in a
channel; after the final join, any collected error is returned (before
reconstruction); otherwise `file.ReconstructFile` is invoked — and if *it*
fails the error is only printed, the function logs success and returns
`nil`.

`downloadChunk` reads one response message; a read/decode failure or a
non-`CHUNK_RESPONSE` type is an error, and a payload whose `Data` does not
hash to its `Hash` is an integrity error; there is no retry anywhere.

The network is modelled as a function giving, per `(server, chunkID)`, the
decoded response (or a failure) of that chunk's one fetch; dial/read/decode
failures are folded into the same `Except`.  Worker interleaving does not
affect which jobs run (each queue item is consumed exactly once) nor the
error/no-error outcome, so the model evaluates the jobs in queue order. -/

instance {ε α : Type} [DecidableEq ε] [DecidableEq α] : DecidableEq (Except ε α) := by
  intro a b
  cases a with
  | error e =>
    cases b with
    | error f => exact decidable_of_iff (e = f) (by simp)
    | ok y => exact isFalse (by simp)
  | ok x =>
    cases b with
    | error f => exact isFalse (by simp)
    | ok y => exact decidable_of_iff (x = y) (by simp)

inductive DlError where
  | net : String → DlError
  | unexpectedType : String → DlError
  | integrity : (chunkID : String) → DlError
  | save : String → DlError
  | catalogFetch : String → DlError
  | notFound : (fileHash : String) → DlError
  | chunkDownload : DlError → DlError
deriving DecidableEq

/-- `json.Unmarshal` of a payload into `ChunkResponsePayload`
`(ChunkID, Data, Hash)`; zero values when the payload has another shape. -/
def payloadChunkResp : PayloadVal → String × List Nat × String
  | .chunkResp cid data hash => (cid, data, hash)
  | _ => ("", [], "")

/-- `downloadChunk(conn, chunkID)` applied to the one response the server
sends back: reject read/decode failures, non-`CHUNK_RESPONSE` types, and
payloads whose data does not hash to the carried hash. -/
def downloadChunkM (hashFn : List Nat → String) (resp : Except String Message) :
    Except DlError (List Nat) :=
  match resp with
  | .error e => .error (.net e)
  | .ok m =>
    if m.type ≠ ChunkResponse then .error (.unexpectedType m.type)
    else if hashFn (payloadChunkResp m.payload).2.1 ≠ (payloadChunkResp m.payload).2.2 then
      .error (.integrity (payloadChunkResp m.payload).1)
    else .ok (payloadChunkResp m.payload).2.1

/-- The client environment of one download: hash function, the outcome of
`fetchCatalog(servers[0])`, the per-`(server, chunkID)` response, the
outcome of `saveChunk`'s write, and the outcome of `file.ReconstructFile`. -/
structure ClientEnv where
  hashFn : List Nat → String
  catalogResult : Except String FileCatalog
  response : (server : String) → (chunkID : String) → Except String Message
  saveResult : (chunkID : String) → Except String Unit
  reconstructResult : Except String Unit

/-- `downloadChunkFromServer`: dial + fetch + verify + save for one chunk. -/
def downloadChunkFromServerM (env : ClientEnv) (server chunkID : String) :
    Except DlError Unit :=
  match downloadChunkM env.hashFn (env.response server chunkID) with
  | .error e => .error e
  | .ok _ =>
    match env.saveResult chunkID with
    | .error e => .error (.save e)
    | .ok _ => .ok ()

/-- The catalog-scan loop: `Chunks` of the first entry whose `Hash` matches,
`[]` when none does (`fileChunks` keeps its zero value). -/
def findChunksForHash (cat : FileCatalog) (fileHash : String) : List String :=
  match cat.Files.find? (fun f => f.Hash == fileHash) with
  | some f => f.Chunks
  | none => []

/-- Go map insert: overwrite the key's entry if present, else append. -/
def mapInsert (m : List (String × String)) (k v : String) : List (String × String) :=
  if m.any (fun p => p.1 == k) then
    m.map (fun p => if p.1 == k then (k, v) else p)
  else m ++ [(k, v)]

/-- The assignment loop `for i, chunk := range fileChunks`:
`chunkToServer[chunk] = servers[i % len(servers)]`. -/
def buildAssign (servers : List String) :
    Nat → List String → List (String × String) → List (String × String)
  | _, [], m => m
  | i, c :: cs, m =>
    buildAssign servers (i + 1) cs (mapInsert m c (servers.getD (i % servers.length) ""))

def chunkToServer (chunks servers : List String) : List (String × String) :=
  buildAssign servers 0 chunks []

/-- Observable outcome of one `DownloadFileFromMultipleServers` call. -/
structure DlOutcome where
  /-- the function's return value (`.ok ()` is Go's `nil`) -/
  result : Except DlError Unit
  /-- whether `file.ReconstructFile` was invoked -/
  reconstructInvoked : Bool
  /-- the `(server, chunk)` jobs dequeued from the work queue, each once -/
  jobs : List (String × String)
deriving DecidableEq

set_option linter.unusedVariables false in
def DownloadFileFromMultipleServersM (env : ClientEnv) (fileHash fileName : String)
    (servers : List String) : DlOutcome :=
  match env.catalogResult with
  | .error e => { result := .error (.catalogFetch e), reconstructInvoked := false, jobs := [] }
  | .ok cat =>
    if findChunksForHash cat fileHash = [] then
      { result := .error (.notFound fileHash), reconstructInvoked := false, jobs := [] }
    else
      let jobs := (chunkToServer (findChunksForHash cat fileHash) servers).map
        (fun p => (p.2, p.1))
      match (jobs.map (fun j => downloadChunkFromServerM env j.1 j.2)).findSome?
          (fun o => match o with | .error e => some e | .ok _ => none) with
      | some e =>
        { result := .error (.chunkDownload e), reconstructInvoked := false, jobs := jobs }
      | none =>
        match env.reconstructResult with
        | .error _ =>
          -- the error is printed ("Failed to reconstruct file: …") but not
          -- returned; the function then logs success and returns nil
          { result := .ok (), reconstructInvoked := true, jobs := jobs }
        | .ok _ =>
          { result := .ok (), reconstructInvoked := true, jobs := jobs }

theorem lookup_mem {m : List (String × String)} {k v : String}
    (h : m.lookup k = some v) : (k, v) ∈ m := by
  induction m with
  | nil => simp [List.lookup] at h
  | cons p rest ih =>
    rcases p with ⟨a, b⟩
    by_cases hk : k = a
    · subst hk
      simp [List.lookup] at h
      simp [h]
    · have hbeq : (k == a) = false := beq_false_of_ne hk
      simp only [List.lookup, hbeq] at h
      exact List.mem_cons_of_mem _ (ih h)

theorem lookup_append_left {m l : List (String × String)} {k v : String}
    (h : m.lookup k = some v) : (m ++ l).lookup k = some v := by
  induction m with
  | nil => simp [List.lookup] at h
  | cons p rest ih =>
    rcases p with ⟨a, b⟩
    by_cases hk : (k == a) = true
    · simp only [List.lookup, hk] at h ⊢
      exact h
    · have hbeq : (k == a) = false := by simpa using hk
      simp only [List.cons_append, List.lookup, hbeq] at h ⊢
      exact ih h

theorem lookup_append_fresh (m : List (String × String)) (c v : String)
    (h : m.any (fun p => p.1 == c) = false) :
    (m ++ [(c, v)]).lookup c = some v := by
  induction m with
  | nil => simp [List.lookup]
  | cons p rest ih =>
    rcases p with ⟨a, b⟩
    simp only [List.any_cons, Bool.or_eq_false_iff] at h
    have hne : a ≠ c := by simpa using h.1
    have hbeq : (c == a) = false := beq_false_of_ne (Ne.symm hne)
    simp only [List.cons_append, List.lookup, hbeq]
    exact ih h.2

theorem mapInsert_fresh (m : List (String × String)) (c v : String)
    (h : m.any (fun p => p.1 == c) = false) :
    mapInsert m c v = m ++ [(c, v)] := by
  simp only [mapInsert, h]
  rfl

theorem getD_eq_get (l : List String) (n : Nat) (d : String) (h : n < l.length) :
    l.getD n d = l.get ⟨n, h⟩ := by
  simp [List.getD_eq_getElem?_getD, List.getElem?_eq_getElem h]

theorem buildAssign_spec (servers : List String) :
    ∀ (cs : List String) (i : Nat) (m : List (String × String)),
      cs.Nodup → (∀ c ∈ cs, m.any (fun p => p.1 == c) = false) →
      (buildAssign servers i cs m).map Prod.fst = m.map Prod.fst ++ cs ∧
      (∀ j (hj : j < cs.length), (buildAssign servers i cs m).lookup (cs.get ⟨j, hj⟩)
          = some (servers.getD ((i + j) % servers.length) "")) ∧
      (∀ k v, m.lookup k = some v → k ∉ cs →
          (buildAssign servers i cs m).lookup k = some v) := by
  intro cs
  induction cs with
  | nil =>
    intro i m _ _
    refine ⟨by simp [buildAssign], ?_, ?_⟩
    · intro j hj; simp at hj
    · intro k v hk _
      simpa [buildAssign] using hk
  | cons c cs ih =>
    intro i m hnd hdis
    have hfresh : m.any (fun p => p.1 == c) = false := hdis c (by simp)
    have hm' : mapInsert m c (servers.getD (i % servers.length) "")
        = m ++ [(c, servers.getD (i % servers.length) "")] :=
      mapInsert_fresh m c _ hfresh
    have hnd' : cs.Nodup := (List.nodup_cons.mp hnd).2
    have hcnotin : c ∉ cs := (List.nodup_cons.mp hnd).1
    have hdis' : ∀ x ∈ cs,
        (m ++ [(c, servers.getD (i % servers.length) "")]).any (fun p => p.1 == x) = false := by
      intro x hx
      have hcx : (c == x) = false := beq_false_of_ne (fun hEq => hcnotin (hEq ▸ hx))
      simp [List.any_append, hdis x (List.mem_cons_of_mem _ hx), hcx]
    obtain ⟨hkeys, hlook, hpres⟩ :=
      ih (i + 1) (m ++ [(c, servers.getD (i % servers.length) "")]) hnd' hdis'
    have hstep : buildAssign servers i (c :: cs) m
        = buildAssign servers (i + 1) cs
            (m ++ [(c, servers.getD (i % servers.length) "")]) := by
      rw [buildAssign, hm']
    refine ⟨?_, ?_, ?_⟩
    · rw [hstep, hkeys]
      simp
    · intro j hj
      match j with
      | 0 =>
        have hc_look : (m ++ [(c, servers.getD (i % servers.length) "")]).lookup c
            = some (servers.getD (i % servers.length) "") :=
          lookup_append_fresh m c _ hfresh
        have h0 := hpres c _ hc_look hcnotin
        rw [hstep]
        simpa using h0
      | j + 1 =>
        have hjlt : j < cs.length := by
          simpa [Nat.succ_lt_succ_iff] using hj
        have hrec := hlook j hjlt
        rw [hstep]
        have harith : i + 1 + j = i + (j + 1) := by omega
        simpa [harith] using hrec
    · intro k v hk hknotin
      rw [hstep]
      exact hpres k v (lookup_append_left hk)
        (fun h => hknotin (List.mem_cons_of_mem _ h))

/-- **C5.** For every duplicate-free chunk list (chunk ids are unique within
a file's chunk list by the data model) and non-empty server list, the
round-robin map built by `DownloadFileFromMultipleServers` assigns the chunk
at index `i` to `servers[i % len(servers)]`, and its keys are exactly the
chunks, each assigned once. -/
theorem roundRobin_assignment (chunks servers : List String) (hnd : chunks.Nodup)
    (hS : servers ≠ []) (i : Nat) (hi : i < chunks.length) :
    (chunkToServer chunks servers).lookup (chunks.get ⟨i, hi⟩)
      = some (servers.get ⟨i % servers.length, Nat.mod_lt i (List.length_pos.mpr hS)⟩) ∧
    (chunkToServer chunks servers).map Prod.fst = chunks := by
  obtain ⟨hkeys, hlook, -⟩ :=
    buildAssign_spec servers chunks 0 [] hnd (fun c _ => rfl)
  constructor
  · have h := hlook i hi
    rw [Nat.zero_add] at h
    rw [chunkToServer, h,
      getD_eq_get servers _ "" (Nat.mod_lt i (List.length_pos.mpr hS))]
  · simpa [chunkToServer] using hkeys

/-- Witness for C5: with K = 7 chunks and S = 3 servers the assignment is
the pattern `[0, 1, 2, 0, 1, 2, 0]` and every chunk is a key exactly once. -/
theorem roundRobin_assignment_witness :
    (["c0", "c1", "c2", "c3", "c4", "c5", "c6"] : List String).Nodup ∧
    (["s0", "s1", "s2"] : List String) ≠ [] ∧
    (chunkToServer ["c0", "c1", "c2", "c3", "c4", "c5", "c6"]
        ["s0", "s1", "s2"]).lookup "c3" = some "s0" ∧
    (chunkToServer ["c0", "c1", "c2", "c3", "c4", "c5", "c6"]
        ["s0", "s1", "s2"]).map Prod.fst = ["c0", "c1", "c2", "c3", "c4", "c5", "c6"] ∧
    chunkToServer ["c0", "c1", "c2", "c3", "c4", "c5", "c6"] ["s0", "s1", "s2"]
      = [("c0", "s0"), ("c1", "s1"), ("c2", "s2"), ("c3", "s0"),
         ("c4", "s1"), ("c5", "s2"), ("c6", "s0")] := by
  refine ⟨by decide, by decide, ?_, ?_, by decide⟩
  · exact (roundRobin_assignment ["c0", "c1", "c2", "c3", "c4", "c5", "c6"]
      ["s0", "s1", "s2"] (by decide) (by decide) 3 (by decide)).1
  · exact (roundRobin_assignment ["c0", "c1", "c2", "c3", "c4", "c5", "c6"]
      ["s0", "s1", "s2"] (by decide) (by decide) 0 (by decide)).2

/-- **C3.** If the response for some assigned chunk carries data that does
not hash to its `Hash` field, `downloadChunk` rejects it (no retry: each
queue item is consumed exactly once), the whole download returns an error,
and `ReconstructFile` is never invoked. -/
theorem integrityFailure_aborts_download (env : ClientEnv) (fileHash fileName : String)
    (servers : List String) (cat : FileCatalog)
    (hcat : env.catalogResult = .ok cat)
    (hnd : (findChunksForHash cat fileHash).Nodup)
    (c srv : String)
    (hassign : (chunkToServer (findChunksForHash cat fileHash) servers).lookup c = some srv)
    (m : Message) (hresp : env.response srv c = .ok m)
    (htype : m.type = ChunkResponse)
    (hbad : env.hashFn (payloadChunkResp m.payload).2.1 ≠ (payloadChunkResp m.payload).2.2) :
    (∃ e, (DownloadFileFromMultipleServersM env fileHash fileName servers).result
        = .error (.chunkDownload e)) ∧
    (DownloadFileFromMultipleServersM env fileHash fileName servers).reconstructInvoked
        = false ∧
    ((DownloadFileFromMultipleServersM env fileHash fileName servers).jobs.map
        Prod.snd).count c = 1 := by
  obtain ⟨hkeys0, -, -⟩ :=
    buildAssign_spec servers (findChunksForHash cat fileHash) 0 [] hnd (fun _ _ => rfl)
  have hkeys : (chunkToServer (findChunksForHash cat fileHash) servers).map Prod.fst
      = findChunksForHash cat fileHash := by
    simpa [chunkToServer] using hkeys0
  have hpair : (c, srv) ∈ chunkToServer (findChunksForHash cat fileHash) servers :=
    lookup_mem hassign
  have hcmem : c ∈ findChunksForHash cat fileHash := by
    rw [← hkeys]
    exact List.mem_map_of_mem Prod.fst hpair
  have hne : findChunksForHash cat fileHash ≠ [] := List.ne_nil_of_mem hcmem
  have herr : downloadChunkFromServerM env srv c
      = .error (.integrity (payloadChunkResp m.payload).1) := by
    simp [downloadChunkFromServerM, downloadChunkM, hresp, htype, hbad]
  have hjobmem : (srv, c) ∈ (chunkToServer (findChunksForHash cat fileHash) servers).map
      (fun p => (p.2, p.1)) :=
    List.mem_map.mpr ⟨(c, srv), hpair, rfl⟩
  have houtmem : (Except.error (DlError.integrity (payloadChunkResp m.payload).1)
        : Except DlError Unit)
      ∈ ((chunkToServer (findChunksForHash cat fileHash) servers).map
          (fun p => (p.2, p.1))).map (fun j => downloadChunkFromServerM env j.1 j.2) :=
    List.mem_map.mpr ⟨(srv, c), hjobmem, herr⟩
  have hjobs_snd : ((chunkToServer (findChunksForHash cat fileHash) servers).map
      (fun p => (p.2, p.1))).map Prod.snd = findChunksForHash cat fileHash := by
    rw [List.map_map]
    have hcomp : (Prod.snd ∘ fun p : String × String => (p.2, p.1)) = Prod.fst := rfl
    rw [hcomp, hkeys]
  have hcount : (((chunkToServer (findChunksForHash cat fileHash) servers).map
      (fun p => (p.2, p.1))).map Prod.snd).count c = 1 := by
    rw [hjobs_snd]
    exact List.count_eq_one_of_mem hnd hcmem
  rw [List.map_map] at houtmem hcount
  rcases hfs : List.findSome?
      (fun o => match o with | .error e => some e | .ok _ => none)
      ((chunkToServer (findChunksForHash cat fileHash) servers).map
        ((fun j => downloadChunkFromServerM env j.1 j.2) ∘ fun p => (p.2, p.1))) with _ | e
  · exfalso
    have hall := List.findSome?_eq_none_iff.mp hfs _ houtmem
    simp at hall
  · refine ⟨⟨e, ?_⟩, ?_, ?_⟩ <;>
      simp [DownloadFileFromMultipleServersM, hcat, hne, hfs, hcount]

/-- The environment of the C3 witness: one file `f.bin` with hash `FH` and
one chunk `c0`, one server, and a chunk response whose data hashes to
`GOOD` while its hash field says `BAD`. -/
def envBadHash : ClientEnv :=
  { hashFn := fun _ => "GOOD"
    catalogResult := .ok ⟨[{ Name := "f.bin", Size := 2, Hash := "FH", Chunks := ["c0"] }]⟩
    response := fun _ _ => .ok { type := ChunkResponse, payload := .chunkResp "c0" [1, 2] "BAD" }
    saveResult := fun _ => .ok ()
    reconstructResult := .ok () }

/-- Witness for C3: the corrupted chunk makes the concrete download fail
without reconstruction and with the chunk fetched exactly once. -/
theorem integrityFailure_aborts_download_witness :
    (∃ e, (DownloadFileFromMultipleServersM envBadHash "FH" "f.bin" ["s0"]).result
        = .error (.chunkDownload e)) ∧
    (DownloadFileFromMultipleServersM envBadHash "FH" "f.bin" ["s0"]).reconstructInvoked
        = false ∧
    ((DownloadFileFromMultipleServersM envBadHash "FH" "f.bin" ["s0"]).jobs.map
        Prod.snd).count "c0" = 1 :=
  integrityFailure_aborts_download envBadHash "FH" "f.bin" ["s0"]
    ⟨[{ Name := "f.bin", Size := 2, Hash := "FH", Chunks := ["c0"] }]⟩ rfl
    (by decide) "c0" "s0" (by decide)
    { type := ChunkResponse, payload := .chunkResp "c0" [1, 2] "BAD" } rfl rfl (by decide)

/-- **C10.** When the catalog entry matching the requested hash has an empty
chunk list (as `SplitFile`'s own metadata records for a 0-byte file) — or
when no entry matches at all — `DownloadFileFromMultipleServers` returns the
same "file with hash … not found on servers" error before doing anything
else: the two situations are indistinguishable at the download interface. -/
theorem emptyChunks_indistinguishable_from_absent (env : ClientEnv)
    (fileHash fileName : String) (servers : List String) (cat : FileCatalog)
    (hcat : env.catalogResult = .ok cat)
    (habs : cat.Files.find? (fun f => f.Hash == fileHash) = none ∨
      ∃ f, cat.Files.find? (fun f2 => f2.Hash == fileHash) = some f ∧ f.Chunks = []) :
    DownloadFileFromMultipleServersM env fileHash fileName servers
      = { result := .error (.notFound fileHash), reconstructInvoked := false, jobs := [] } := by
  have hempty : findChunksForHash cat fileHash = [] := by
    rcases habs with h | ⟨f, hf, hfc⟩
    · simp [findChunksForHash, h]
    · simp [findChunksForHash, hf, hfc]
  simp [DownloadFileFromMultipleServersM, hcat, hempty]

/-- Witness for C10: a catalog whose only entry has hash `FH` and no chunks,
and a catalog with no `FH` entry, produce the identical not-found outcome. -/
theorem emptyChunks_indistinguishable_from_absent_witness :
    DownloadFileFromMultipleServersM
        { hashFn := fun _ => "GOOD"
          catalogResult := .ok ⟨[{ Name := "z.bin", Size := 0, Hash := "FH", Chunks := [] }]⟩
          response := fun _ _ => .error "unused"
          saveResult := fun _ => .ok ()
          reconstructResult := .ok () } "FH" "z.bin" ["s0"]
      = { result := .error (.notFound "FH"), reconstructInvoked := false, jobs := [] } ∧
    DownloadFileFromMultipleServersM
        { hashFn := fun _ => "GOOD"
          catalogResult := .ok ⟨[{ Name := "w.bin", Size := 1, Hash := "OTHER", Chunks := ["c0"] }]⟩
          response := fun _ _ => .error "unused"
          saveResult := fun _ => .ok ()
          reconstructResult := .ok () } "FH" "z.bin" ["s0"]
      = { result := .error (.notFound "FH"), reconstructInvoked := false, jobs := [] } :=
  ⟨emptyChunks_indistinguishable_from_absent _ "FH" "z.bin" ["s0"]
      ⟨[{ Name := "z.bin", Size := 0, Hash := "FH", Chunks := [] }]⟩ rfl
      (Or.inr ⟨{ Name := "z.bin", Size := 0, Hash := "FH", Chunks := [] }, by decide, rfl⟩),
   emptyChunks_indistinguishable_from_absent _ "FH" "z.bin" ["s0"]
      ⟨[{ Name := "w.bin", Size := 1, Hash := "OTHER", Chunks := ["c0"] }]⟩ rfl
      (Or.inl (by decide))⟩

/-- The environment of the C4 evaluation: the single chunk downloads and
verifies fine, but `file.ReconstructFile` fails. -/
def envReconFail : ClientEnv :=
  { hashFn := fun _ => "GOOD"
    catalogResult := .ok ⟨[{ Name := "f.bin", Size := 2, Hash := "FH", Chunks := ["c0"] }]⟩
    response := fun _ _ => .ok { type := ChunkResponse, payload := .chunkResp "c0" [1, 2] "GOOD" }
    saveResult := fun _ => .ok ()
    reconstructResult := .error "failed to open metadata file" }

/-- C4 is violated by the code: when reconstruction fails after all chunks
downloaded, `DownloadFileFromMultipleServers` merely prints the error
(`fmt.Printf`), then logs *success* and returns `nil` — the caller sees no
error.  Evaluated here at a failing input: reconstruction was invoked, its
outcome is an error, and the function's result is still `nil`. -/
theorem download_swallows_reconstruct_error :
    envReconFail.reconstructResult = .error "failed to open metadata file" ∧
    (DownloadFileFromMultipleServersM envReconFail "FH" "f.bin" ["s0"]).reconstructInvoked
        = true ∧
    (DownloadFileFromMultipleServersM envReconFail "FH" "f.bin" ["s0"]).result = .ok () := by
  refine ⟨rfl, ?_, ?_⟩ <;> decide

end GoToPeer
